import Mathlib

/-!
Verification of the `gap` stacked-branch CLI core against its design
specification.  The development shallowly embeds the stack data model
(`src/utils/stack.js`), the cascading-rebase state machine
(`src/commands/modify.js`) and the merge detector (`getMergedBranches` in the
sync command) as pure Lean functions, and proves or refutes the specified
properties about them.
-/

namespace Gap

/-! ### Association lists

JavaScript objects used as string-keyed maps are embedded as association
lists in key-insertion order (the order `Object.entries` iterates). -/

/-- Property lookup on a JS object: first binding of the key, if any. -/
def lookup {α : Type} : List (String × α) → String → Option α
  | [], _ => none
  | (k', v') :: rest, k => if k' = k then some v' else lookup rest k

/-- Property assignment on a JS object: overwrite the existing binding in
place (keeping its position), or append a fresh binding at the end. -/
def setKey {α : Type} : List (String × α) → String → α → List (String × α)
  | [], k, v => [(k, v)]
  | (k', v') :: rest, k, v =>
    if k' = k then (k, v) :: rest else (k', v') :: setKey rest k v

/-! ### Stack data model (`src/utils/stack.js`)

`branchParents` is `Option`-valued: `none` embeds a legacy record where the
field is absent (JS `undefined`, falsy), while `some m` embeds a present
map — note that in JS even an empty object is truthy. -/

/-- One stack record as persisted in `stacks.json`. -/
structure StackRecord where
  baseBranch : String
  branches : List String
  branchParents : Option (List (String × String))
  created : String
deriving Repr, DecidableEq

/-- The stacks of one repository: stack name → record. -/
abbrev RepoStacks : Type := List (String × StackRecord)

/-- The whole persisted file: repository identity → its stacks. -/
abbrev StacksFile : Type := List (String × RepoStacks)

/-- JS `Array.prototype.indexOf`: index of the first occurrence, `-1` when
the element is absent. -/
def jsIndexOf (l : List String) (x : String) : Int :=
  if x ∈ l then (l.indexOf x : Int) else -1

/-- `getStackForBranch`: scan the repository's stacks in iteration order and
return the first one whose `branches` contains the branch, together with its
name; `none` when the repository identity cannot be resolved or no stack
contains the branch.  The ambient repository identity (`getCurrentRepo`) is
threaded explicitly as `repo`. -/
def getStackForBranch (repo : Option String) (sf : StacksFile)
    (branch : String) : Option (String × StackRecord) :=
  match repo with
  | none => none
  | some r =>
    let repoStacks := (lookup sf r).getD []
    repoStacks.find? (fun p => decide (branch ∈ p.2.branches))

/-- The legacy positional fallback of `getParentBranch`: the element
immediately preceding the branch in `branches`, or `baseBranch` when the
branch is first (or not found, `indexOf` returning `-1`). -/
def positionalParent (stack : StackRecord) (branch : String) : String :=
  let index := jsIndexOf stack.branches branch
  if index ≤ 0 then stack.baseBranch
  else ((stack.branches.get? (index - 1).toNat).getD stack.baseBranch)

/-- `getParentBranch`: explicit `branchParents` entry when present and truthy,
else the positional fallback over `branches`, else the `"main"` sentinel when
no stack owns the branch.  An empty-string entry is falsy in JS, so the code
falls through to the positional fallback there as well. -/
def getParentBranch (repo : Option String) (sf : StacksFile)
    (branch : String) : String :=
  match getStackForBranch repo sf branch with
  | none => "main"
  | some (_, stack) =>
    match stack.branchParents.bind (fun m => lookup m branch) with
    | some parent =>
      if parent = "" then positionalParent stack branch
      else parent
    | none => positionalParent stack branch

/-- `getChildBranches`: with a present `branchParents` field (truthy even when
empty) return every key mapped to the branch, in map iteration order; with the
field absent fall back to the single positional successor in
`[baseBranch, ...branches]`. -/
def getChildBranches (repo : Option String) (sf : StacksFile)
    (branch : String) : List String :=
  match getStackForBranch repo sf branch with
  | none => []
  | some (_, stack) =>
    match stack.branchParents with
    | some m => (m.filter (fun p => decide (p.2 = branch))).map Prod.fst
    | none =>
      let allBranches := stack.baseBranch :: stack.branches
      let currentIndex := jsIndexOf allBranches branch
      if 0 ≤ currentIndex ∧ currentIndex < (allBranches.length : Int) - 1 then
        [(allBranches.get? (currentIndex + 1).toNat).getD ""]
      else []

/-- Result of `addBranchToStack`: either a failure, a saved updated file, or
the already-present case in which nothing is mutated and nothing saved. -/
inductive AddResult where
  | notInRepo : AddResult
  | stackNotFound : AddResult
  | alreadyPresent : AddResult
  | added (sf : StacksFile) : AddResult
deriving Repr, DecidableEq

/-- `addBranchToStack(stackName, branch, parentBranch?)`: append the branch
when absent, initialise `branchParents` when missing, record the parent edge
when a (truthy) parent is supplied, and save; throw when not in a repository
or the stack does not exist; do nothing when the branch is already present. -/
def addBranchToStack (repo : Option String) (sf : StacksFile)
    (stackName branch : String) (parentBranch : Option String) : AddResult :=
  match repo with
  | none => .notInRepo
  | some r =>
    match lookup sf r with
    | none => .stackNotFound
    | some repoStacks =>
      match lookup repoStacks stackName with
      | none => .stackNotFound
      | some stack =>
        if branch ∈ stack.branches then .alreadyPresent
        else
          let bp := stack.branchParents.getD []
          let bp' :=
            match parentBranch with
            | some p => if p = "" then bp else setKey bp branch p
            | none => bp
          let stack' : StackRecord :=
            { stack with branches := stack.branches ++ [branch],
                         branchParents := some bp' }
          .added (setKey sf r (setKey repoStacks stackName stack'))

/-- `removeBranchFromStack(branch)`: splice the branch out of the `branches`
list of every stack that contains it, delete a stack record whose list
becomes empty, and save; no-op when the repository identity cannot be
resolved.  The `branchParents` map is not touched by the source. -/
def removeBranchFromStack (repo : Option String) (sf : StacksFile)
    (branch : String) : StacksFile :=
  match repo with
  | none => sf
  | some r =>
    match lookup sf r with
    | none => sf
    | some repoStacks =>
      let repoStacks' := repoStacks.filterMap (fun p =>
        if branch ∈ p.2.branches then
          let stack' := { p.2 with branches := p.2.branches.erase branch }
          if stack'.branches = [] then none else some (p.1, stack')
        else some p)
      setKey sf r repoStacks'

/-! ### Cascading rebase (`src/commands/modify.js`)

The durable `gap.modify.state` git-config slot is embedded as an
`Option ModifyState` threaded through the operations.  The outcome of each
underlying `git rebase <onto>` invocation is supplied by a pure oracle
`rebaseOk : branch → onto → Bool`; the `--continue` / `--abort` primitives by
Booleans.  Each operation additionally reports the sequence of states it
saved and the rebase steps `(branch, onto)` it attempted, so the persisted
and ordering behaviour can be stated. -/

/-- The persisted cascade state (JSON in the `gap.modify.state` slot). -/
structure ModifyState where
  stack : String
  currentBranch : String
  downstreamBranches : List String
  processed : List String
deriving Repr, DecidableEq

/-- Result of the shared rebase loop: last in-memory state, states saved by
`updateModifyState`, attempted `(branch, onto)` steps, and the conflicted
branch when the loop exited early. -/
structure LoopResult where
  fin : ModifyState
  saves : List ModifyState
  steps : List (String × String)
  paused : Option String
deriving Repr, DecidableEq

/-- The rebase loop shared by the initial run and `--continue`: rebase each
branch onto the previous one; on success push it onto `processed` and advance
the anchor, on conflict record the branch as the new `currentBranch` and
stop. -/
def rebaseLoop (rebaseOk : String → String → Bool) :
    String → List String → ModifyState → LoopResult
  | _, [], st => ⟨st, [], [], none⟩
  | previousBranch, branch :: rest, st =>
    if rebaseOk branch previousBranch then
      let st' := { st with processed := st.processed ++ [branch] }
      let r := rebaseLoop rebaseOk branch rest st'
      ⟨r.fin, st' :: r.saves, (branch, previousBranch) :: r.steps, r.paused⟩
    else
      let st' := { st with currentBranch := branch }
      ⟨st', [st'], [(branch, previousBranch)], some branch⟩

/-- Observable outcome of a cascade operation. -/
inductive CascadeOutcome where
  | notInStack : CascadeOutcome
  | nothingToDo : CascadeOutcome
  | cancelled : CascadeOutcome
  | noCascade : CascadeOutcome
  | continueFailed : CascadeOutcome
  | paused (branch : String) : CascadeOutcome
  | completed : CascadeOutcome
  | aborted : CascadeOutcome
  | abortFailed : CascadeOutcome
deriving Repr, DecidableEq

/-- Result of a cascade operation: outcome, every state saved to the slot,
every attempted rebase step, the slot contents afterwards, and the last
in-memory state (the value just before a `clearModifyState`, when one
happened). -/
structure CascadeResult where
  outcome : CascadeOutcome
  saves : List ModifyState
  steps : List (String × String)
  slot : Option ModifyState
  final : Option ModifyState
deriving Repr, DecidableEq

/-- The `gap modify` start action: locate the stack of the current branch,
slice the downstream branches strictly after it, stop early when there is
nothing to do or the user declines the prompt, otherwise persist the initial
state and run the rebase loop anchored at the current branch. -/
def modifyStart (rebaseOk : String → String → Bool) (repo : Option String)
    (sf : StacksFile) (currentBranch : String) (confirm : Bool) :
    CascadeResult :=
  match getStackForBranch repo sf currentBranch with
  | none => ⟨.notInStack, [], [], none, none⟩
  | some (name, stack) =>
    let branchIndex := jsIndexOf stack.branches currentBranch
    if branchIndex = -1 then ⟨.notInStack, [], [], none, none⟩
    else
      let downstreamBranches := stack.branches.drop (branchIndex + 1).toNat
      if downstreamBranches.isEmpty then ⟨.nothingToDo, [], [], none, none⟩
      else if ¬ confirm then ⟨.cancelled, [], [], none, none⟩
      else
        let st0 : ModifyState := ⟨name, currentBranch, downstreamBranches, []⟩
        let r := rebaseLoop rebaseOk currentBranch downstreamBranches st0
        match r.paused with
        | some b => ⟨.paused b, st0 :: r.saves, r.steps, some r.fin, some r.fin⟩
        | none => ⟨.completed, st0 :: r.saves, r.steps, none, some r.fin⟩

/-- `gap modify --continue`: fail when no state is persisted or the rebase
continuation fails; otherwise recompute the remaining branches (downstream
minus `processed` minus the paused `currentBranch`) and resume the loop
anchored at the paused branch. -/
def continueModify (rebaseOk : String → String → Bool)
    (rebaseContinueOk : Bool) (slot : Option ModifyState) : CascadeResult :=
  match slot with
  | none => ⟨.noCascade, [], [], none, none⟩
  | some st =>
    if ¬ rebaseContinueOk then ⟨.continueFailed, [], [], some st, some st⟩
    else
      let remainingBranches := st.downstreamBranches.filter
        (fun b => !(st.processed.contains b) && !(b == st.currentBranch))
      if remainingBranches.isEmpty then ⟨.completed, [], [], none, some st⟩
      else
        let r := rebaseLoop rebaseOk st.currentBranch remainingBranches st
        match r.paused with
        | some b => ⟨.paused b, r.saves, r.steps, some r.fin, some r.fin⟩
        | none => ⟨.completed, r.saves, r.steps, none, some r.fin⟩

/-- `gap modify --abort`: fail when no state is persisted; invoke the
rebase-abort primitive and clear the slot on success; leave the slot intact
and report an error when the primitive fails. -/
def abortModify (rebaseAbortOk : Bool) (slot : Option ModifyState) :
    CascadeResult :=
  match slot with
  | none => ⟨.noCascade, [], [], none, none⟩
  | some st =>
    if rebaseAbortOk then ⟨.aborted, [], [], none, some st⟩
    else ⟨.abortFailed, [], [], some st, some st⟩

/-! ### Merge detection (`getMergedBranches` in the sync command)

The per-branch git queries are embedded as a pure oracle
`env : branch → BranchInfo` giving the outcome of the merge-base lookup, the
patch-identity (`--cherry-pick --right-only --no-merges`) unmerged-commit
count, and the `merge-base --is-ancestor` check; `err` embeds the catch-all
for a failing underlying query. -/

/-- Outcome of the underlying git queries for one candidate branch. -/
inductive BranchInfo where
  | noBase : BranchInfo
  | ok (count : Nat) (isReachable : Bool) : BranchInfo
  | err : BranchInfo
deriving Repr, DecidableEq

/-- The reason tag attached to each classification. -/
inductive Reason where
  | allChangesInMain : Reason
  | reachableFromMain : Reason
  | hasUnmergedChanges : Reason
  | noCommonAncestor : Reason
  | error : Reason
deriving Repr, DecidableEq

/-- The classification record built for one candidate branch. -/
structure BranchCheck where
  branch : String
  merged : Bool
  unmergedCount : Option Nat
  reason : Reason
deriving Repr, DecidableEq

/-- Classify one candidate branch, mirroring the body of the `Promise.all`
callback: no merge-base means unmerged with `no-common-ancestor`; otherwise
merged iff the patch-identity count is zero or the tip is reachable from the
reference, with the corresponding reason; a failed query means unmerged with
`error`. -/
def checkBranch (env : String → BranchInfo) (branch : String) : BranchCheck :=
  match env branch with
  | .noBase => ⟨branch, false, none, .noCommonAncestor⟩
  | .ok count isReachable =>
    ⟨branch, count == 0 || isReachable, some count,
      if isReachable then .reachableFromMain
      else if count == 0 then .allChangesInMain
      else .hasUnmergedChanges⟩
  | .err => ⟨branch, false, none, .error⟩

/-- One entry of the unmerged partition. -/
structure UnmergedEntry where
  branch : String
  reason : Reason
  unmergedCount : Option Nat
deriving Repr, DecidableEq

/-- The partition returned by `getMergedBranches`. -/
structure MergedResult where
  merged : List String
  unmerged : List UnmergedEntry
deriving Repr, DecidableEq

/-- `getMergedBranches(mainBranch)`: drop empty names and trunk names from
the local branch list, classify every remaining candidate, and partition into
`merged` (names, sorted) and `unmerged` (name, reason and count, sorted by
name). -/
def getMergedBranches (env : String → BranchInfo)
    (localBranches : List String) (mainBranch : String) : MergedResult :=
  let allBranches := localBranches.filter
    (fun b => !(b == "") && !(b == mainBranch) && !(b == "master") && !(b == "main"))
  if allBranches.isEmpty then ⟨[], []⟩
  else
    let branchChecks := allBranches.map (checkBranch env)
    let merged := (branchChecks.filter (fun c => c.merged)).map (fun c => c.branch)
    let unmerged := (branchChecks.filter (fun c => !c.merged)).map
      (fun c => (⟨c.branch, c.reason, c.unmergedCount⟩ : UnmergedEntry))
    ⟨merged.insertionSort (· ≤ ·),
     unmerged.insertionSort (fun a b => a.branch ≤ b.branch)⟩

end Gap

/-! ### Helper lemmas -/

namespace Gap

theorem lookup_setKey_self {α : Type} (m : List (String × α)) (k : String) (v : α) :
    lookup (setKey m k v) k = some v := by
  induction m with
  | nil => simp [setKey, lookup]
  | cons p rest ih =>
    obtain ⟨k', v'⟩ := p
    by_cases h : k' = k
    · simp [setKey, h, lookup]
    · simp [setKey, h, lookup, ih]

theorem setKey_of_lookup_eq {α : Type} (m : List (String × α)) (k : String) (v : α)
    (h : lookup m k = some v) : setKey m k v = m := by
  induction m with
  | nil => simp [lookup] at h
  | cons p rest ih =>
    obtain ⟨k', v'⟩ := p
    by_cases hk : k' = k
    · subst hk
      simp [lookup] at h
      simp [setKey, h]
    · simp [lookup, hk] at h
      simp [setKey, hk, ih h]

theorem filterMap_id_of_forall {α : Type} (f : α → Option α) :
    ∀ (l : List α), (∀ a ∈ l, f a = some a) → l.filterMap f = l
  | [], _ => rfl
  | a :: rest, h => by
    rw [List.filterMap_cons, h a (List.mem_cons_self a rest),
      filterMap_id_of_forall f rest (fun x hx => h x (List.mem_cons_of_mem _ hx))]

theorem eq_of_mem_keys_nodup {α : Type} :
    ∀ (l : List (String × α)), (l.map Prod.fst).Nodup →
      ∀ (p q : String × α), p ∈ l → q ∈ l → p.1 = q.1 → p = q
  | [], _, p, _, hp, _, _ => absurd hp (List.not_mem_nil p)
  | a :: rest, hn, p, q, hp, hq, hk => by
    rw [List.map_cons] at hn
    have ha : a.1 ∉ rest.map Prod.fst := (List.nodup_cons.mp hn).1
    have hn' : (rest.map Prod.fst).Nodup := (List.nodup_cons.mp hn).2
    rcases List.mem_cons.mp hp with rfl | hp'
    · rcases List.mem_cons.mp hq with rfl | hq'
      · rfl
      · have hqm : p.1 ∈ rest.map Prod.fst := by
          rw [hk]; exact List.mem_map_of_mem Prod.fst hq'
        exact absurd hqm ha
    · rcases List.mem_cons.mp hq with rfl | hq'
      · have hpm : q.1 ∈ rest.map Prod.fst := by
          rw [← hk]; exact List.mem_map_of_mem Prod.fst hp'
        exact absurd hpm ha
      · exact eq_of_mem_keys_nodup rest hn' p q hp' hq' hk

theorem rebaseLoop_steps (rebaseOk : String → String → Bool) :
    ∀ (prev : String) (ds : List String) (st : ModifyState),
      (rebaseLoop rebaseOk prev ds st).steps.map Prod.fst =
        ds.take (rebaseLoop rebaseOk prev ds st).steps.length ∧
      (rebaseLoop rebaseOk prev ds st).steps.map Prod.snd =
        (prev :: ds).take (rebaseLoop rebaseOk prev ds st).steps.length
  | _, [], st => by simp [rebaseLoop]
  | prev, b :: rest, st => by
    by_cases h : rebaseOk b prev
    · have ih := rebaseLoop_steps rebaseOk b rest { st with processed := st.processed ++ [b] }
      simp only [rebaseLoop, h, if_true, List.map_cons, List.length_cons, List.take_succ_cons]
      exact ⟨by rw [ih.1], by rw [ih.2]⟩
    · simp [rebaseLoop, h]

theorem rebaseLoop_success (rebaseOk : String → String → Bool) :
    ∀ (prev : String) (ds : List String) (st : ModifyState),
      (∀ p ∈ ds.zip (prev :: ds), rebaseOk p.1 p.2 = true) →
      (rebaseLoop rebaseOk prev ds st).paused = none ∧
      (rebaseLoop rebaseOk prev ds st).fin =
        { st with processed := st.processed ++ ds }
  | _, [], st, _ => by simp [rebaseLoop]
  | prev, b :: rest, st, h => by
    have hb : rebaseOk b prev = true :=
      h (b, prev) (by rw [List.zip_cons_cons]; exact List.mem_cons_self _ _)
    have ih := rebaseLoop_success rebaseOk b rest { st with processed := st.processed ++ [b] }
      (fun p hp => h p (by rw [List.zip_cons_cons]; exact List.mem_cons_of_mem _ hp))
    simp only [rebaseLoop, hb, if_true]
    refine ⟨ih.1, ?_⟩
    rw [ih.2]
    simp [List.append_assoc]

theorem rebaseLoop_conflict (rebaseOk : String → String → Bool) :
    ∀ (prev : String) (xs : List String) (c : String) (ys : List String) (st : ModifyState),
      (∀ p ∈ xs.zip (prev :: xs), rebaseOk p.1 p.2 = true) →
      rebaseOk c (xs.getLastD prev) = false →
      (rebaseLoop rebaseOk prev (xs ++ c :: ys) st).paused = some c ∧
      (rebaseLoop rebaseOk prev (xs ++ c :: ys) st).fin =
        { st with currentBranch := c, processed := st.processed ++ xs }
  | prev, [], c, ys, st, _, hc => by
    have hc' : rebaseOk c prev = false := hc
    simp [rebaseLoop, hc']
  | prev, x :: xs, c, ys, st, h, hc => by
    have hx : rebaseOk x prev = true :=
      h (x, prev) (by rw [List.zip_cons_cons]; exact List.mem_cons_self _ _)
    have ih := rebaseLoop_conflict rebaseOk x xs c ys { st with processed := st.processed ++ [x] }
      (fun p hp => h p (by rw [List.zip_cons_cons]; exact List.mem_cons_of_mem _ hp))
      (by rw [List.getLastD_cons] at hc; exact hc)
    rw [List.cons_append]
    simp only [rebaseLoop, hx, if_true]
    refine ⟨ih.1, ?_⟩
    rw [ih.2]
    simp [List.append_assoc]

theorem filter_middle_eq (xs : List String) (c : String) (ys : List String)
    (hnd : (xs ++ c :: ys).Nodup) :
    (xs ++ c :: ys).filter (fun b => !(xs.contains b) && !(b == c)) = ys := by
  rw [List.filter_append]
  obtain ⟨h1, h2, h3⟩ := List.nodup_append.1 hnd
  have hxs : xs.filter (fun b => !(xs.contains b) && !(b == c)) = [] := by
    rw [List.filter_eq_nil_iff]
    intro a ha
    simp [ha]
  have hcys : (c :: ys).filter (fun b => !(xs.contains b) && !(b == c)) = ys := by
    rw [List.filter_cons, if_neg (by simp)]
    rw [List.filter_eq_self]
    intro a ha
    have hax : a ∉ xs := fun hx => h3 hx (List.mem_cons_of_mem c ha)
    have hac : a ≠ c := by
      rintro rfl
      exact (List.nodup_cons.1 h2).1 ha
    simp [hax, hac]
  rw [hxs, hcys, List.nil_append]

/-! ### Concrete configurations used in counterexamples and witnesses -/

/-- One stack with a partially populated `branchParents` map. -/
def cfgMixed : StacksFile :=
  [("r", [("s", ⟨"main", ["f1", "f2"], some [("f2", "f1")], "t"⟩)])]

/-- One stack whose `branchParents` field is present but empty. -/
def cfgEmptyBP : StacksFile :=
  [("r", [("s", ⟨"main", ["f1", "f2"], some [], "t"⟩)])]

/-- One legacy stack whose `branchParents` field is absent. -/
def cfgLegacy : StacksFile :=
  [("r", [("s", ⟨"main", ["f1"], none, "t"⟩)])]

/-- A three-branch legacy stack for cascade scenarios. -/
def cfgCascade1 : StacksFile :=
  [("r", [("s", ⟨"main", ["f0", "d1", "d2"], none, "t"⟩)])]

/-- A rebase oracle that conflicts exactly when rebasing `d1` onto `f0`. -/
def rOkD1 : String → String → Bool := fun b p => !(b == "d1" && p == "f0")

/-- A three-branch legacy stack for the double-conflict scenario. -/
def cfgCascade2 : StacksFile :=
  [("r", [("s", ⟨"main", ["f0", "a", "b"], none, "t"⟩)])]

/-- A rebase oracle that conflicts exactly when rebasing `a` onto `f0`. -/
def rOkConflictA : String → String → Bool := fun b p => !(b == "a" && p == "f0")

/-- A rebase oracle that conflicts exactly when rebasing `b` onto `a`. -/
def rOkConflictB : String → String → Bool := fun b p => !(b == "b" && p == "a")

end Gap

namespace Gap

/-! ### Claim theorems -/

/-- Claim C8: Continue and Abort each fail with the no-cascade-in-progress
error when no persisted cascade state exists; a successful Abort invokes the
rebase-abort primitive (here: `rebaseAbortOk = true`) and then discards the
persisted state; if the abort primitive fails, the persisted state is left
intact and an error is reported. -/
theorem c8_continue_abort_preconditions :
    ∀ (rebaseOk : String → String → Bool) (rebaseContinueOk rebaseAbortOk : Bool)
      (st : ModifyState),
    (continueModify rebaseOk rebaseContinueOk none).outcome = .noCascade ∧
    (abortModify rebaseAbortOk none).outcome = .noCascade ∧
    abortModify true (some st) = ⟨.aborted, [], [], none, some st⟩ ∧
    abortModify false (some st) = ⟨.abortFailed, [], [], some st, some st⟩ := by
  intro rebaseOk rebaseContinueOk rebaseAbortOk st
  refine ⟨rfl, ?_, rfl, rfl⟩
  cases rebaseAbortOk <;> rfl

/-- Claim C3 (counterexample): for the stack with `baseBranch = "main"`,
`branches = ["f1","f2"]` and `branchParents = {"f2":"f1"}`, the claim's
expected result `childrenOf("main") = {"f1"}` is false — the code returns
the empty set. -/
theorem c3_counterexample :
    "f1" ∉ getChildBranches (some "r") cfgMixed "main" := by decide

/-- Claim C3 (amended): for that same stack, `childrenOf("main")` yields `{}`:
`"main"` is not a member of any stack's `branches`, so no owning stack is
found at all; moreover, whenever the `branchParents` field is present (even
partially populated or empty) children resolution uses only the explicit
entries, with no per-branch positional fallback — as the present-but-empty
variant shows for `"f1"`, whose positional successor `"f2"` is not
returned. -/
theorem c3_amended :
    getStackForBranch (some "r") cfgMixed "main" = none ∧
    getChildBranches (some "r") cfgMixed "main" = [] ∧
    getChildBranches (some "r") cfgMixed "f1" = ["f2"] ∧
    getChildBranches (some "r") cfgEmptyBP "f1" = [] := by decide

/-- Claim C4 (counterexample): in a legacy stack (`branchParents` absent) with
`baseBranch = "main"` and `branches = ["f1"]`, the member branch `"f1"` is not
the base branch, yet `childrenOf(parentOf("f1"))` does not contain `"f1"`:
`parentOf("f1") = "main"`, and `childrenOf("main")` is empty because the base
branch is not a member of any stack's `branches` list. -/
theorem c4_counterexample :
    "f1" ∉ getChildBranches (some "r") cfgLegacy
      (getParentBranch (some "r") cfgLegacy "f1") := by decide

/-- Claim C2 (counterexample): removing `"f2"` from the stack
`{baseBranch: "main", branches: ["f1","f2"], branchParents: {"f2":"f1"}}`
leaves the record with `branchParents` still containing the `"f2"` entry,
contradicting the claim that the branch is also removed from the owning
stack's `branchParents` map. -/
theorem c2_counterexample :
    lookup ((lookup (removeBranchFromStack (some "r") cfgMixed "f2") "r").getD []) "s" =
      some { baseBranch := "main", branches := ["f1"],
             branchParents := some [("f2", "f1")], created := "t" } := by decide

/-- Claim C1 (counterexample): with downstream branches `["d1","d2"]` and a
conflict at the first branch `d1`, a successful Continue completes but the
final persisted `processed` (the state just before it is cleared) is
`["d2"]`, not the full `downstreamBranches` sequence `["d1","d2"]`: the
conflicted branch, finished by the rebase-continue primitive, is never
appended to `processed`. -/
theorem c1_counterexample :
    (modifyStart rOkD1 (some "r") cfgCascade1 "f0" true).slot =
      some ⟨"s", "d1", ["d1", "d2"], []⟩ ∧
    (continueModify rOkD1 true (some ⟨"s", "d1", ["d1", "d2"], []⟩)).outcome =
      .completed ∧
    (continueModify rOkD1 true (some ⟨"s", "d1", ["d1", "d2"], []⟩)).final =
      some ⟨"s", "d1", ["d1", "d2"], ["d2"]⟩ ∧
    (["d2"] : List String) ≠ ["d1", "d2"] := by decide

/-- Claim C7 (code bug, evaluated at the failing input): over downstream
`["a","b"]` anchored at `"f0"`, a conflict rebasing `a` onto `f0` pauses with
`processed = []` and `currentBranch = "a"`; the first Continue finishes `a`
via the continuation primitive but conflicts rebasing `b` onto `a`, pausing
with `processed = []` (because `a` was never appended) and
`currentBranch = "b"`; the second Continue then recomputes the remaining
branches as `["a"]` and rebases `a` onto `b` — an earlier downstream branch
rebased onto a later one, violating the claimed ordering guarantee. -/
theorem c7_bug_eval :
    (modifyStart rOkConflictA (some "r") cfgCascade2 "f0" true).slot =
      some ⟨"s", "a", ["a", "b"], []⟩ ∧
    (continueModify rOkConflictB true (some ⟨"s", "a", ["a", "b"], []⟩)).slot =
      some ⟨"s", "b", ["a", "b"], []⟩ ∧
    (continueModify (fun _ _ => true) true (some ⟨"s", "b", ["a", "b"], []⟩)).steps =
      [("a", "b")] := by decide

end Gap

namespace Gap

/-- A two-branch legacy stack (absent `branchParents`) for positional
fallback scenarios. -/
def cfgLegacy2 : StacksFile := [("r", [("s", ⟨"main", ["f1", "f2"], none, "t"⟩)])]

/-- Claim C9: `parentOf(branch)` returns the `branchParents` entry of the
owning stack when a (non-empty, hence truthy) one exists for that branch;
otherwise it returns the element immediately preceding the branch in
`[baseBranch, ...branches]` (the base branch when the branch is first, i.e.
at index `i + 1 = 1`); and when no stack's `branches` list contains the
branch, it returns the trunk sentinel `"main"`. -/
theorem c9_parent_resolution (repo : Option String) (sf : StacksFile) (branch : String) :
    (getStackForBranch repo sf branch = none →
      getParentBranch repo sf branch = "main") ∧
    (∀ name stack p, getStackForBranch repo sf branch = some (name, stack) →
      stack.branchParents.bind (fun m => lookup m branch) = some p → p ≠ "" →
      getParentBranch repo sf branch = p) ∧
    (∀ name stack i, getStackForBranch repo sf branch = some (name, stack) →
      stack.branchParents.bind (fun m => lookup m branch) = none →
      (stack.baseBranch :: stack.branches).indexOf branch = i + 1 →
      (stack.baseBranch :: stack.branches).get? i =
        some (getParentBranch repo sf branch)) := by
  refine ⟨?_, ?_, ?_⟩
  · intro h
    simp [getParentBranch, h]
  · intro name stack p hfind hbp hp
    simp [getParentBranch, hfind, hbp, hp]
  · intro name stack i hfind hbp hidx
    have hmem : branch ∈ stack.branches := by
      have h1 := hfind
      simp only [getStackForBranch] at h1
      cases repo with
      | none => exact absurd h1 (by simp)
      | some r =>
        have := List.find?_some h1
        simpa using this
    have hbase : stack.baseBranch ≠ branch := by
      intro hb
      rw [List.indexOf_cons_eq _ hb] at hidx
      omega
    have hidx2 : stack.branches.indexOf branch = i := by
      rw [List.indexOf_cons_ne _ hbase] at hidx
      omega
    have hlt : stack.branches.indexOf branch < stack.branches.length :=
      List.indexOf_lt_length.mpr hmem
    simp only [getParentBranch, hfind, hbp, positionalParent, jsIndexOf, hmem, if_pos]
    cases i with
    | zero =>
      rw [hidx2]
      simp [List.get?]
    | succ j =>
      rw [hidx2]
      rw [if_neg (by omega)]
      have htn : (((j + 1 : Nat) : Int) - 1).toNat = j := by omega
      rw [htn]
      have hjlt : j < stack.branches.length := by omega
      rw [List.get?_cons_succ]
      rw [List.get?_eq_get hjlt]
      simp [List.get?_eq_get, hjlt]

/-- Witness for C9: the sentinel case for an unstaged branch, the explicit
entry case for `f2 ↦ f1`, and the positional case in a legacy record. -/
theorem c9_witness :
    getParentBranch (some "r") cfgMixed "zz" = "main" ∧
    getParentBranch (some "r") cfgMixed "f2" = "f1" ∧
    getParentBranch (some "r") cfgLegacy2 "f2" = "f1" := by
  refine ⟨?_, ?_, ?_⟩
  · exact (c9_parent_resolution (some "r") cfgMixed "zz").1 (by decide)
  · exact (c9_parent_resolution (some "r") cfgMixed "f2").2.1 "s"
      ⟨"main", ["f1", "f2"], some [("f2", "f1")], "t"⟩ "f1"
      (by decide) (by decide) (by decide)
  · have h3 := (c9_parent_resolution (some "r") cfgLegacy2 "f2").2.2 "s"
      ⟨"main", ["f1", "f2"], none, "t"⟩ 1 (by decide) (by decide) (by decide)
    exact (Option.some.inj h3).symm

/-- Claim C6: starting a cascade computes `downstreamBranches` as the slice
of the stack's `branches` strictly after the current branch's position; if
that slice is empty, no cascade state is ever persisted (no saves, empty
slot) and the operation reports nothing to do, whatever the confirmation;
otherwise (when the user confirms) the first state ever persisted is exactly
`{stackName, currentBranch, downstreamBranches, processed: []}`. -/
theorem c6_start_cascade (rebaseOk : String → String → Bool) (repo : String)
    (sf : StacksFile) (cur name : String) (stack : StackRecord)
    (hfind : getStackForBranch (some repo) sf cur = some (name, stack)) :
    (stack.branches.drop (stack.branches.indexOf cur + 1) = [] →
      ∀ confirm, modifyStart rebaseOk (some repo) sf cur confirm =
        ⟨.nothingToDo, [], [], none, none⟩) ∧
    (stack.branches.drop (stack.branches.indexOf cur + 1) ≠ [] →
      (modifyStart rebaseOk (some repo) sf cur true).saves.head? =
        some ⟨name, cur, stack.branches.drop (stack.branches.indexOf cur + 1), []⟩) := by
  have hmem : cur ∈ stack.branches := by
    have h1 := hfind
    simp only [getStackForBranch] at h1
    have := List.find?_some h1
    simpa using this
  have hnz : ((stack.branches.indexOf cur : Int)) ≠ -1 := by omega
  have htn : ((stack.branches.indexOf cur : Int) + 1).toNat = stack.branches.indexOf cur + 1 := by
    omega
  constructor
  · intro hds confirm
    simp only [modifyStart, hfind, jsIndexOf, hmem, if_true, if_pos, hnz, if_neg, htn, hds]
    rfl
  · intro hds
    have hF : (stack.branches.drop (stack.branches.indexOf cur + 1)).isEmpty = false := by
      cases h : stack.branches.drop (stack.branches.indexOf cur + 1) with
      | nil => exact absurd h hds
      | cons a l => rfl
    simp only [modifyStart, hfind, jsIndexOf, hmem, if_true, hnz, if_neg, htn, hF]
    simp only [not_true, if_false, Bool.false_eq_true]
    cases hp : (rebaseLoop rebaseOk cur (stack.branches.drop (stack.branches.indexOf cur + 1))
        ⟨name, cur, stack.branches.drop (stack.branches.indexOf cur + 1), []⟩).paused <;>
      simp [hp]

/-- Witness for C6: on the last branch of the stack the slice is empty and
nothing is persisted; anchored at the first branch the initial persisted
state carries the stack name, current branch, exact slice and empty
`processed`. -/
theorem c6_witness :
    modifyStart rOkD1 (some "r") cfgCascade1 "d2" true =
      ⟨.nothingToDo, [], [], none, none⟩ ∧
    (modifyStart rOkD1 (some "r") cfgCascade1 "f0" true).saves.head? =
      some ⟨"s", "f0", ["d1", "d2"], []⟩ := by
  refine ⟨?_, ?_⟩
  · exact (c6_start_cascade rOkD1 "r" cfgCascade1 "d2" "s"
      ⟨"main", ["f0", "d1", "d2"], none, "t"⟩ (by decide)).1 (by decide) true
  · exact (c6_start_cascade rOkD1 "r" cfgCascade1 "f0" "s"
      ⟨"main", ["f0", "d1", "d2"], none, "t"⟩ (by decide)).2 (by decide)

/-- Claim C10: `addBranch` fails when no repository identity resolves or the
named stack does not exist; it is a no-op (and performs no save) when the
branch is already present; otherwise it appends the branch and records the
parent edge exactly when a (truthy) parent is supplied; and it is idempotent:
after a successful add, adding the same branch again reports it already
present and changes nothing. -/
theorem c10_add_branch (sf : StacksFile) (r stackName branch : String)
    (parentBranch : Option String) :
    (addBranchToStack none sf stackName branch parentBranch = .notInRepo) ∧
    (lookup sf r = none →
      addBranchToStack (some r) sf stackName branch parentBranch = .stackNotFound) ∧
    (∀ repoStacks, lookup sf r = some repoStacks → lookup repoStacks stackName = none →
      addBranchToStack (some r) sf stackName branch parentBranch = .stackNotFound) ∧
    (∀ repoStacks stack, lookup sf r = some repoStacks →
      lookup repoStacks stackName = some stack → branch ∈ stack.branches →
      addBranchToStack (some r) sf stackName branch parentBranch = .alreadyPresent) ∧
    (∀ repoStacks stack, lookup sf r = some repoStacks →
      lookup repoStacks stackName = some stack → branch ∉ stack.branches →
      addBranchToStack (some r) sf stackName branch none =
        .added (setKey sf r (setKey repoStacks stackName
          { stack with branches := stack.branches ++ [branch],
                       branchParents := some (stack.branchParents.getD []) }))) ∧
    (∀ repoStacks stack p, lookup sf r = some repoStacks →
      lookup repoStacks stackName = some stack → branch ∉ stack.branches → p ≠ "" →
      addBranchToStack (some r) sf stackName branch (some p) =
        .added (setKey sf r (setKey repoStacks stackName
          { stack with branches := stack.branches ++ [branch],
                       branchParents :=
                         some (setKey (stack.branchParents.getD []) branch p) }))) ∧
    (∀ sf', addBranchToStack (some r) sf stackName branch parentBranch = .added sf' →
      addBranchToStack (some r) sf' stackName branch parentBranch = .alreadyPresent) := by
  refine ⟨rfl, ?_, ?_, ?_, ?_, ?_, ?_⟩
  · intro h
    simp [addBranchToStack, h]
  · intro repoStacks h1 h2
    simp [addBranchToStack, h1, h2]
  · intro repoStacks stack h1 h2 h3
    simp [addBranchToStack, h1, h2, h3]
  · intro repoStacks stack h1 h2 h3
    simp [addBranchToStack, h1, h2, h3]
  · intro repoStacks stack p h1 h2 h3 hp
    simp [addBranchToStack, h1, h2, h3, hp]
  · intro sf' h
    cases hx : lookup sf r with
    | none =>
      simp only [addBranchToStack, hx] at h
      exact absurd h (by simp)
    | some repoStacks =>
      cases hy : lookup repoStacks stackName with
      | none =>
        simp only [addBranchToStack, hx, hy] at h
        exact absurd h (by simp)
      | some stack =>
        by_cases hm : branch ∈ stack.branches
        · simp only [addBranchToStack, hx, hy, hm, if_true] at h
          exact absurd h (by simp)
        · cases parentBranch with
          | none =>
            simp only [addBranchToStack, hx, hy, hm, if_false] at h
            have hsf' : sf' = setKey sf r (setKey repoStacks stackName
                { stack with branches := stack.branches ++ [branch],
                             branchParents := some (stack.branchParents.getD []) }) := by
              simpa using h.symm
            subst hsf'
            simp [addBranchToStack, lookup_setKey_self]
          | some p =>
            by_cases hp : p = ""
            · simp only [addBranchToStack, hx, hy, hm, if_false, hp, if_true] at h
              have hsf' : sf' = setKey sf r (setKey repoStacks stackName
                  { stack with branches := stack.branches ++ [branch],
                               branchParents := some (stack.branchParents.getD []) }) := by
                simpa using h.symm
              subst hsf'
              simp [addBranchToStack, lookup_setKey_self, hp]
            · simp only [addBranchToStack, hx, hy, hm, if_false, hp] at h
              have hsf' : sf' = setKey sf r (setKey repoStacks stackName
                  { stack with branches := stack.branches ++ [branch],
                               branchParents :=
                                 some (setKey (stack.branchParents.getD []) branch p) }) := by
                simpa using h.symm
              subst hsf'
              simp [addBranchToStack, lookup_setKey_self, hp]

/-- Witness for C10: failure cases, the no-op on a present branch, an append
that records the supplied parent edge, and idempotence of that append. -/
theorem c10_witness :
    addBranchToStack none cfgMixed "s" "f3" none = .notInRepo ∧
    addBranchToStack (some "r") cfgMixed "nope" "f3" none = .stackNotFound ∧
    addBranchToStack (some "r") cfgMixed "s" "f1" (some "x") = .alreadyPresent ∧
    addBranchToStack (some "r") cfgMixed "s" "f3" (some "f2") =
      .added [("r", [("s", ⟨"main", ["f1", "f2", "f3"],
        some [("f2", "f1"), ("f3", "f2")], "t"⟩)])] ∧
    addBranchToStack (some "r")
      [("r", [("s", ⟨"main", ["f1", "f2", "f3"],
        some [("f2", "f1"), ("f3", "f2")], "t"⟩)])]
      "s" "f3" (some "f2") = .alreadyPresent := by
  refine ⟨?_, ?_, ?_, ?_, ?_⟩
  · exact (c10_add_branch cfgMixed "r" "s" "f3" none).1
  · exact (c10_add_branch cfgMixed "r" "nope" "f3" none).2.2.1
      [("s", ⟨"main", ["f1", "f2"], some [("f2", "f1")], "t"⟩)] (by decide) (by decide)
  · exact (c10_add_branch cfgMixed "r" "s" "f1" (some "x")).2.2.2.1
      [("s", ⟨"main", ["f1", "f2"], some [("f2", "f1")], "t"⟩)]
      ⟨"main", ["f1", "f2"], some [("f2", "f1")], "t"⟩ (by decide) (by decide) (by decide)
  · exact (c10_add_branch cfgMixed "r" "s" "f3" (some "f2")).2.2.2.2.2.1
      [("s", ⟨"main", ["f1", "f2"], some [("f2", "f1")], "t"⟩)]
      ⟨"main", ["f1", "f2"], some [("f2", "f1")], "t"⟩ "f2"
      (by decide) (by decide) (by decide) (by decide)
  · exact (c10_add_branch cfgMixed "r" "s" "f3" (some "f2")).2.2.2.2.2.2
      [("r", [("s", ⟨"main", ["f1", "f2", "f3"],
        some [("f2", "f1"), ("f3", "f2")], "t"⟩)])]
      (by decide)

end Gap

namespace Gap

/-- Claim C1 (amended): a rebase conflict at the k-th downstream branch
(`xs` the first k−1 branches, `c` the conflicted one) leaves the persisted
state with `processed` exactly `xs` and the conflicted branch recorded as the
pause point; a successful Continue then completes, but the final `processed`
(the value just before the state is cleared) is `xs ++ ys` — the full
`downstreamBranches` with the conflicted branch omitted — because the
conflicted branch, finished by the rebase-continue primitive, is excluded
from the remaining set yet never appended to `processed`. -/
theorem c1_amended (rebaseOk rebaseOk2 : String → String → Bool)
    (repo : String) (sf : StacksFile) (cur name : String) (stack : StackRecord)
    (xs : List String) (c : String) (ys : List String)
    (hfind : getStackForBranch (some repo) sf cur = some (name, stack))
    (hds : stack.branches.drop (stack.branches.indexOf cur + 1) = xs ++ c :: ys)
    (hxs : ∀ p ∈ xs.zip (cur :: xs), rebaseOk p.1 p.2 = true)
    (hc : rebaseOk c (xs.getLastD cur) = false)
    (hnd : (xs ++ c :: ys).Nodup)
    (hys : ∀ p ∈ ys.zip (c :: ys), rebaseOk2 p.1 p.2 = true) :
    (modifyStart rebaseOk (some repo) sf cur true).outcome = .paused c ∧
    (modifyStart rebaseOk (some repo) sf cur true).slot =
      some ⟨name, c, xs ++ c :: ys, xs⟩ ∧
    (continueModify rebaseOk2 true (some ⟨name, c, xs ++ c :: ys, xs⟩)).outcome =
      .completed ∧
    (continueModify rebaseOk2 true (some ⟨name, c, xs ++ c :: ys, xs⟩)).final =
      some ⟨name, c, xs ++ c :: ys, xs ++ ys⟩ := by
  have hmem : cur ∈ stack.branches := by
    have h1 := hfind
    simp only [getStackForBranch] at h1
    have := List.find?_some h1
    simpa using this
  have hnz : ((stack.branches.indexOf cur : Int)) ≠ -1 := by omega
  have htn : ((stack.branches.indexOf cur : Int) + 1).toNat =
      stack.branches.indexOf cur + 1 := by omega
  have hF : (xs ++ c :: ys).isEmpty = false := by
    cases hE : xs ++ c :: ys with
    | nil => exact absurd hE (by simp)
    | cons a l => rfl
  have hloop := rebaseLoop_conflict rebaseOk cur xs c ys
    ⟨name, cur, xs ++ c :: ys, []⟩ hxs hc
  refine ⟨?_, ?_, ?_, ?_⟩
  · simp only [modifyStart, hfind, jsIndexOf, hmem, if_true, hnz, if_neg, htn, hds, hF]
    simp only [not_true, if_false, Bool.false_eq_true]
    rw [hloop.1]
  · simp only [modifyStart, hfind, jsIndexOf, hmem, if_true, hnz, if_neg, htn, hds, hF]
    simp only [not_true, if_false, Bool.false_eq_true]
    rw [hloop.1, hloop.2]
    simp
  · have hrem := filter_middle_eq xs c ys hnd
    cases ys with
    | nil =>
      simp only [continueModify] at *
      rw [hrem]
      rfl
    | cons y ys' =>
      have hloop2 := rebaseLoop_success rebaseOk2 c (y :: ys')
        ⟨name, c, xs ++ c :: y :: ys', xs⟩ hys
      simp only [continueModify]
      rw [hrem]
      simp only [List.isEmpty_cons, if_false, Bool.false_eq_true]
      rw [hloop2.1]
      simp
  · have hrem := filter_middle_eq xs c ys hnd
    cases ys with
    | nil =>
      simp only [continueModify]
      rw [hrem]
      simp
    | cons y ys' =>
      have hloop2 := rebaseLoop_success rebaseOk2 c (y :: ys')
        ⟨name, c, xs ++ c :: y :: ys', xs⟩ hys
      simp only [continueModify]
      rw [hrem]
      simp only [List.isEmpty_cons, if_false, Bool.false_eq_true]
      rw [hloop2.1]
      simp [hloop2.2]

/-- Claim C2 (amended): `removeBranch` removes the branch from the `branches`
list of every stack that contains it while leaving `branchParents` untouched,
deletes a stack record whose `branches` list becomes empty, and is a no-op
when the branch is staged nowhere or no repository identity resolves. -/
theorem c2_amended (sf : StacksFile) (branch : String) :
    (removeBranchFromStack none sf branch = sf) ∧
    (∀ r, lookup sf r = none → removeBranchFromStack (some r) sf branch = sf) ∧
    (∀ r repoStacks, lookup sf r = some repoStacks →
      ((∀ p ∈ repoStacks, branch ∉ p.2.branches) →
        removeBranchFromStack (some r) sf branch = sf) ∧
      (∀ p ∈ repoStacks, branch ∉ p.2.branches →
        p ∈ (lookup (removeBranchFromStack (some r) sf branch) r).getD []) ∧
      (∀ p ∈ repoStacks, branch ∈ p.2.branches → p.2.branches.erase branch ≠ [] →
        (p.1, { p.2 with branches := p.2.branches.erase branch }) ∈
          (lookup (removeBranchFromStack (some r) sf branch) r).getD []) ∧
      ((repoStacks.map Prod.fst).Nodup →
        ∀ p ∈ repoStacks, branch ∈ p.2.branches → p.2.branches.erase branch = [] →
        p.1 ∉ ((lookup (removeBranchFromStack (some r) sf branch) r).getD []).map
          Prod.fst)) := by
  refine ⟨rfl, ?_, ?_⟩
  · intro r h
    simp [removeBranchFromStack, h]
  · intro r repoStacks h
    have hres : removeBranchFromStack (some r) sf branch =
        setKey sf r (repoStacks.filterMap (fun p =>
          if branch ∈ p.2.branches then
            if (p.2.branches.erase branch) = [] then none
            else some (p.1, { p.2 with branches := p.2.branches.erase branch })
          else some p)) := by
      simp [removeBranchFromStack, h]
    have hlook : (lookup (removeBranchFromStack (some r) sf branch) r).getD [] =
        repoStacks.filterMap (fun p =>
          if branch ∈ p.2.branches then
            if (p.2.branches.erase branch) = [] then none
            else some (p.1, { p.2 with branches := p.2.branches.erase branch })
          else some p) := by
      rw [hres, lookup_setKey_self]
      rfl
    refine ⟨?_, ?_, ?_, ?_⟩
    · intro hall
      rw [hres, filterMap_id_of_forall _ _ (fun p hp => by simp [hall p hp])]
      exact setKey_of_lookup_eq sf r repoStacks h
    · intro p hp hnot
      rw [hlook]
      exact List.mem_filterMap.mpr ⟨p, hp, by simp [hnot]⟩
    · intro p hp hmem hne
      rw [hlook]
      exact List.mem_filterMap.mpr ⟨p, hp, by simp [hmem, hne]⟩
    · intro hkeys p hp hmem hnil hq
      rw [hlook] at hq
      rcases List.mem_map.mp hq with ⟨q, hq', hqk⟩
      rcases List.mem_filterMap.mp hq' with ⟨a, ha, hfa⟩
      have hak : a.1 = q.1 := by
        by_cases hm : branch ∈ a.2.branches
        · by_cases hz : a.2.branches.erase branch = []
          · simp [hm, hz] at hfa
          · simp only [hm, if_true, hz, if_false] at hfa
            cases hfa
            rfl
        · simp [hm] at hfa
          cases hfa
          rfl
      have hap : a = p := eq_of_mem_keys_nodup repoStacks hkeys a p ha hp (by rw [hak, hqk])
      subst hap
      simp [hmem, hnil] at hfa

/-- Claim C4 (amended): for a repository with a single stack record whose
`branchParents` field is absent, `parentOf` follows the positional
interpretation of `[baseBranch, ...branches]` for every member branch (base
branch when first, predecessor otherwise), and the round-trip
`childrenOf(parentOf(b))` contains `b` for every member except the first
branch; for the first branch the parent is the base branch, which is not a
member of any stack's `branches`, so `childrenOf(baseBranch)` yields `{}`. -/
theorem c4_amended (repo name base created : String) (branches : List String)
    (hnd : branches.Nodup) (hbase : base ∉ branches) :
    (∀ i (h : i + 1 < branches.length),
      getParentBranch (some repo) [(repo, [(name, ⟨base, branches, none, created⟩)])]
          (branches.get ⟨i + 1, h⟩) =
        branches.get ⟨i, by omega⟩ ∧
      branches.get ⟨i + 1, h⟩ ∈
        getChildBranches (some repo) [(repo, [(name, ⟨base, branches, none, created⟩)])]
          (branches.get ⟨i, by omega⟩)) ∧
    (∀ h0 : 0 < branches.length,
      getParentBranch (some repo) [(repo, [(name, ⟨base, branches, none, created⟩)])]
        (branches.get ⟨0, h0⟩) = base) ∧
    getChildBranches (some repo) [(repo, [(name, ⟨base, branches, none, created⟩)])]
      base = [] := by
  have hfind : ∀ b, b ∈ branches →
      getStackForBranch (some repo) [(repo, [(name, ⟨base, branches, none, created⟩)])] b =
        some (name, ⟨base, branches, none, created⟩) := by
    intro b hb
    simp [getStackForBranch, lookup, List.find?, hb]
  refine ⟨?_, ?_, ?_⟩
  · intro i h
    have hmem1 : branches.get ⟨i + 1, h⟩ ∈ branches := List.get_mem _ _ _
    have hmem0 : branches.get ⟨i, by omega⟩ ∈ branches := List.get_mem _ _ _
    have hidx1 : branches.indexOf (branches.get ⟨i + 1, h⟩) = i + 1 := by
      have := List.indexOf_getElem hnd (i + 1) h
      simpa using this
    have hidx0 : branches.indexOf (branches.get ⟨i, by omega⟩) = i := by
      have := List.indexOf_getElem hnd i (by omega)
      simpa using this
    constructor
    · rw [getParentBranch, hfind _ hmem1]
      simp only [positionalParent, jsIndexOf, hmem1, if_pos, hidx1]
      rw [if_neg (by omega)]
      have htn : (((i + 1 : Nat) : Int) - 1).toNat = i := by omega
      rw [htn]
      rw [List.get?_eq_get (by omega : i < branches.length)]
      rfl
    · rw [getChildBranches, hfind _ hmem0]
      have hbne : base ≠ branches.get ⟨i, by omega⟩ := by
        intro hb
        exact hbase (hb ▸ hmem0)
      have hidxall : (base :: branches).indexOf (branches.get ⟨i, by omega⟩) = i + 1 := by
        rw [List.indexOf_cons_ne _ hbne, hidx0]
      have hmemall : branches.get ⟨i, by omega⟩ ∈ base :: branches :=
        List.mem_cons_of_mem _ hmem0
      simp only [jsIndexOf, hmemall, if_pos, hidxall]
      rw [if_pos ⟨by omega, by
        simp only [List.length_cons]
        push_cast
        omega⟩]
      have htn2 : (((i + 1 : Nat) : Int) + 1).toNat = i + 2 := by omega
      rw [htn2]
      have : (base :: branches).get? (i + 2) = branches.get? (i + 1) := by
        rw [List.get?_cons_succ]
      rw [this, List.get?_eq_get h]
      simp
  · intro h0
    have hmem0 : branches.get ⟨0, h0⟩ ∈ branches := List.get_mem _ _ _
    have hidx0 : branches.indexOf (branches.get ⟨0, h0⟩) = 0 := by
      have := List.indexOf_getElem hnd 0 h0
      simpa using this
    rw [getParentBranch, hfind _ hmem0]
    simp only [positionalParent, jsIndexOf, hmem0, if_pos, hidx0]
    rfl
  · have hnone : getStackForBranch (some repo)
        [(repo, [(name, ⟨base, branches, none, created⟩)])] base = none := by
      simp [getStackForBranch, lookup, List.find?, hbase]
    rw [getChildBranches, hnone]

/-- One stack whose only branch carries an explicit parent edge (so removing
that branch deletes the whole record). -/
def cfgSingle : StacksFile := [("r", [("s", ⟨"main", ["f1"], some [("f1", "main")], "t"⟩)])]

/-- Witness for the amended C1: conflict at the first of two downstream
branches, then a successful Continue whose final `processed` is `["d2"]`. -/
theorem c1_amended_witness :
    (modifyStart rOkD1 (some "r") cfgCascade1 "f0" true).outcome = .paused "d1" ∧
    (continueModify rOkD1 true (some ⟨"s", "d1", ["d1", "d2"], []⟩)).final =
      some ⟨"s", "d1", ["d1", "d2"], ["d2"]⟩ := by
  have h := c1_amended rOkD1 rOkD1 "r" cfgCascade1 "f0" "s"
    ⟨"main", ["f0", "d1", "d2"], none, "t"⟩ [] "d1" ["d2"]
    (by decide) (by decide) (by decide) (by decide) (by decide) (by decide)
  exact ⟨h.1, h.2.2.2⟩

/-- Witness for the amended C2: a no-op without a repository, a removal that
keeps the `branchParents` entry, and the deletion of an emptied record. -/
theorem c2_amended_witness :
    removeBranchFromStack none cfgMixed "f2" = cfgMixed ∧
    (("s", (⟨"main", ["f1"], some [("f2", "f1")], "t"⟩ : StackRecord)) ∈
      (lookup (removeBranchFromStack (some "r") cfgMixed "f2") "r").getD []) ∧
    "s" ∉ ((lookup (removeBranchFromStack (some "r") cfgSingle "f1") "r").getD []).map
      Prod.fst := by
  refine ⟨(c2_amended cfgMixed "f2").1, ?_, ?_⟩
  · exact ((c2_amended cfgMixed "f2").2.2 "r"
      [("s", ⟨"main", ["f1", "f2"], some [("f2", "f1")], "t"⟩)] (by decide)).2.2.1
      ("s", ⟨"main", ["f1", "f2"], some [("f2", "f1")], "t"⟩)
      (by decide) (by decide) (by decide)
  · exact ((c2_amended cfgSingle "f1").2.2 "r"
      [("s", ⟨"main", ["f1"], some [("f1", "main")], "t"⟩)] (by decide)).2.2.2 (by decide)
      ("s", ⟨"main", ["f1"], some [("f1", "main")], "t"⟩)
      (by decide) (by decide) (by decide)

/-- Witness for the amended C4: in the two-branch legacy stack the round-trip
holds for the second branch, while the first branch's parent is the base,
whose children set is empty. -/
theorem c4_amended_witness :
    getParentBranch (some "r") cfgLegacy2 "f2" = "f1" ∧
    "f2" ∈ getChildBranches (some "r") cfgLegacy2 "f1" ∧
    getParentBranch (some "r") cfgLegacy2 "f1" = "main" ∧
    getChildBranches (some "r") cfgLegacy2 "main" = [] := by
  have h := c4_amended "r" "s" "main" "t" ["f1", "f2"] (by decide) (by decide)
  exact ⟨(h.1 0 (by decide)).1, (h.1 0 (by decide)).2, h.2.1 (by decide), h.2.2⟩

end Gap


namespace Gap

instance : DecidableRel (fun (a b : UnmergedEntry) => a.branch ≤ b.branch) :=
  fun a b => inferInstanceAs (Decidable (a.branch ≤ b.branch))

instance : IsTotal UnmergedEntry (fun a b => a.branch ≤ b.branch) :=
  ⟨fun a b => le_total a.branch b.branch⟩

instance : IsTrans UnmergedEntry (fun a b => a.branch ≤ b.branch) :=
  ⟨fun _ _ _ hab hbc => le_trans hab hbc⟩

/-- The classification record built for a branch carries that branch's name. -/
theorem checkBranch_branch (env : String → BranchInfo) (b : String) :
    (checkBranch env b).branch = b := by
  cases h : env b <;> simp [checkBranch, h]

/-- Claim C5: for every candidate branch (non-empty, not a trunk name) with a
merge-base against the reference, the detector classifies it merged iff the
patch-identity unmerged-commit count is zero or its tip is an ancestor of the
reference; a branch with no common ancestor is unmerged with reason
`no-common-ancestor`; every branch's classification record carries exactly
one reason tag from the five-element set; and the result partitions the
candidates into `merged` and `unmerged`, each sorted by branch name. -/
theorem c5_merge_detector (env : String → BranchInfo)
    (localBranches : List String) (mainBranch : String) :
    (∀ b ∈ localBranches.filter (fun x => !(x == "") && !(x == mainBranch) &&
        !(x == "master") && !(x == "main")),
      ∀ count isReachable, env b = .ok count isReachable →
      (b ∈ (getMergedBranches env localBranches mainBranch).merged ↔
        (count = 0 ∨ isReachable = true))) ∧
    (∀ b ∈ localBranches.filter (fun x => !(x == "") && !(x == mainBranch) &&
        !(x == "master") && !(x == "main")),
      env b = .noBase →
      b ∉ (getMergedBranches env localBranches mainBranch).merged ∧
      (⟨b, .noCommonAncestor, none⟩ : UnmergedEntry) ∈
        (getMergedBranches env localBranches mainBranch).unmerged) ∧
    (∀ b, (checkBranch env b).reason ∈
      [Reason.allChangesInMain, Reason.reachableFromMain, Reason.hasUnmergedChanges,
       Reason.noCommonAncestor, Reason.error]) ∧
    ((getMergedBranches env localBranches mainBranch).merged ++
        ((getMergedBranches env localBranches mainBranch).unmerged.map
          (fun u => u.branch))).Perm
      (localBranches.filter (fun x => !(x == "") && !(x == mainBranch) &&
        !(x == "master") && !(x == "main"))) ∧
    (getMergedBranches env localBranches mainBranch).merged.Sorted (· ≤ ·) ∧
    (getMergedBranches env localBranches mainBranch).unmerged.Sorted
      (fun a b => a.branch ≤ b.branch) := by
  by_cases hE : (localBranches.filter (fun x => !(x == "") && !(x == mainBranch) &&
      !(x == "master") && !(x == "main"))).isEmpty
  · have hres : getMergedBranches env localBranches mainBranch = ⟨[], []⟩ := by
      simp only [getMergedBranches, hE, if_true]
    have hnil : localBranches.filter (fun x => !(x == "") && !(x == mainBranch) &&
        !(x == "master") && !(x == "main")) = [] := by
      rwa [List.isEmpty_iff] at hE
    refine ⟨?_, ?_, ?_, ?_, ?_, ?_⟩
    · intro b hb
      rw [hnil] at hb
      exact absurd hb (List.not_mem_nil b)
    · intro b hb
      rw [hnil] at hb
      exact absurd hb (List.not_mem_nil b)
    · intro b
      cases h : env b with
      | noBase => simp [checkBranch, h]
      | err => simp [checkBranch, h]
      | ok count isReachable =>
        simp only [checkBranch, h]
        by_cases hr : isReachable
        · simp [hr]
        · by_cases hc : count = 0
          · simp [hr, hc]
          · simp [hr, hc]
    · rw [hres, hnil]
      rfl
    · rw [hres]
      exact List.sorted_nil
    · rw [hres]
      exact List.sorted_nil
  · simp only [Bool.not_eq_true] at hE
    have hres : getMergedBranches env localBranches mainBranch =
        ⟨((((localBranches.filter (fun x => !(x == "") && !(x == mainBranch) &&
              !(x == "master") && !(x == "main"))).map (checkBranch env)).filter
            (fun c => c.merged)).map (fun c => c.branch)).insertionSort (· ≤ ·),
         ((((localBranches.filter (fun x => !(x == "") && !(x == mainBranch) &&
              !(x == "master") && !(x == "main"))).map (checkBranch env)).filter
            (fun c => !c.merged)).map
            (fun c => (⟨c.branch, c.reason, c.unmergedCount⟩ : UnmergedEntry))).insertionSort
           (fun a b => a.branch ≤ b.branch)⟩ := by
      simp only [getMergedBranches, hE]
      rfl
    have hmm : ∀ b, b ∈ (getMergedBranches env localBranches mainBranch).merged ↔
        b ∈ (((localBranches.filter (fun x => !(x == "") && !(x == mainBranch) &&
              !(x == "master") && !(x == "main"))).map (checkBranch env)).filter
            (fun c => c.merged)).map (fun c => c.branch) := by
      intro b
      rw [hres]
      exact (List.perm_insertionSort _ _).mem_iff
    have hum : ∀ u, u ∈ (getMergedBranches env localBranches mainBranch).unmerged ↔
        u ∈ (((localBranches.filter (fun x => !(x == "") && !(x == mainBranch) &&
              !(x == "master") && !(x == "main"))).map (checkBranch env)).filter
            (fun c => !c.merged)).map
            (fun c => (⟨c.branch, c.reason, c.unmergedCount⟩ : UnmergedEntry)) := by
      intro u
      rw [hres]
      exact (List.perm_insertionSort _ _).mem_iff
    refine ⟨?_, ?_, ?_, ?_, ?_, ?_⟩
    · intro b hb count isReachable henv
      rw [hmm]
      constructor
      · intro h
        rcases List.mem_map.mp h with ⟨c, hc, hcb⟩
        rcases List.mem_filter.mp hc with ⟨hcChecks, hcMerged⟩
        rcases List.mem_map.mp hcChecks with ⟨a, _, rfl⟩
        have hab : a = b := by rw [← hcb, checkBranch_branch]
        subst hab
        simp [checkBranch, henv] at hcMerged
        rcases hcMerged with h0 | hr
        · exact Or.inl h0
        · exact Or.inr hr
      · intro h
        refine List.mem_map.mpr ⟨checkBranch env b,
          List.mem_filter.mpr ⟨List.mem_map_of_mem _ hb, ?_⟩, checkBranch_branch env b⟩
        rcases h with h0 | hr
        · simp [checkBranch, henv, h0]
        · simp [checkBranch, henv, hr]
    · intro b hb henv
      constructor
      · intro h
        rw [hmm] at h
        rcases List.mem_map.mp h with ⟨c, hc, hcb⟩
        rcases List.mem_filter.mp hc with ⟨hcChecks, hcMerged⟩
        rcases List.mem_map.mp hcChecks with ⟨a, _, rfl⟩
        have hab : a = b := by rw [← hcb, checkBranch_branch]
        subst hab
        simp [checkBranch, henv] at hcMerged
      · rw [hum]
        refine List.mem_map.mpr ⟨checkBranch env b,
          List.mem_filter.mpr ⟨List.mem_map_of_mem _ hb, ?_⟩, ?_⟩
        · simp [checkBranch, henv]
        · simp [checkBranch, henv]
    · intro b
      cases h : env b with
      | noBase => simp [checkBranch, h]
      | err => simp [checkBranch, h]
      | ok count isReachable =>
        simp only [checkBranch, h]
        by_cases hr : isReachable
        · simp [hr]
        · by_cases hc : count = 0
          · simp [hr, hc]
          · simp [hr, hc]
    · rw [hres]
      have hchecksmap : (((localBranches.filter (fun x => !(x == "") && !(x == mainBranch) &&
            !(x == "master") && !(x == "main"))).map (checkBranch env)).map
            (fun c => c.branch)) =
          localBranches.filter (fun x => !(x == "") && !(x == mainBranch) &&
            !(x == "master") && !(x == "main")) := by
        rw [List.map_map]
        calc (localBranches.filter (fun x => !(x == "") && !(x == mainBranch) &&
                !(x == "master") && !(x == "main"))).map
              ((fun c : BranchCheck => c.branch) ∘ checkBranch env) =
            (localBranches.filter (fun x => !(x == "") && !(x == mainBranch) &&
                !(x == "master") && !(x == "main"))).map id :=
              List.map_congr_left (fun a _ => checkBranch_branch env a)
          _ = _ := List.map_id _
      have p1 := List.perm_insertionSort (α := String) (· ≤ ·)
        ((((localBranches.filter (fun x => !(x == "") && !(x == mainBranch) &&
            !(x == "master") && !(x == "main"))).map (checkBranch env)).filter
          (fun c => c.merged)).map (fun c => c.branch))
      have p2 := List.perm_insertionSort (fun (a b : UnmergedEntry) => a.branch ≤ b.branch)
        ((((localBranches.filter (fun x => !(x == "") && !(x == mainBranch) &&
            !(x == "master") && !(x == "main"))).map (checkBranch env)).filter
          (fun c => !c.merged)).map
          (fun c => (⟨c.branch, c.reason, c.unmergedCount⟩ : UnmergedEntry)))
      refine (p1.append (p2.map (fun u => u.branch))).trans ?_
      rw [List.map_map]
      have hcomp : ((fun u : UnmergedEntry => u.branch) ∘
          (fun c : BranchCheck => (⟨c.branch, c.reason, c.unmergedCount⟩ : UnmergedEntry))) =
          (fun c : BranchCheck => c.branch) := rfl
      rw [hcomp, ← List.map_append]
      refine ((List.filter_append_perm _ _).map _).trans ?_
      rw [hchecksmap]
    · rw [hres]
      exact List.sorted_insertionSort _ _
    · rw [hres]
      exact List.sorted_insertionSort _ _

end Gap

namespace Gap

/-- A concrete query oracle: `feature` squash-merged (count 0), `wip` with two
unmerged commits, `nope` with no common ancestor, `reach` reachable. -/
def envW : String → BranchInfo := fun b =>
  if b == "feature" then .ok 0 false
  else if b == "wip" then .ok 2 false
  else if b == "nope" then .noBase
  else if b == "reach" then .ok 3 true
  else .err

/-- Witness for C5: the zero-count and ancestor-reachable branches are
classified merged, the branch with unmerged commits is not, and the branch
without a common ancestor appears unmerged with reason `no-common-ancestor`. -/
theorem c5_witness :
    "feature" ∈ (getMergedBranches envW ["wip", "feature", "nope", "reach"] "main").merged ∧
    "reach" ∈ (getMergedBranches envW ["wip", "feature", "nope", "reach"] "main").merged ∧
    "wip" ∉ (getMergedBranches envW ["wip", "feature", "nope", "reach"] "main").merged ∧
    (⟨"nope", .noCommonAncestor, none⟩ : UnmergedEntry) ∈
      (getMergedBranches envW ["wip", "feature", "nope", "reach"] "main").unmerged := by
  have h := c5_merge_detector envW ["wip", "feature", "nope", "reach"] "main"
  refine ⟨?_, ?_, ?_, ?_⟩
  · exact (h.1 "feature" (by decide) 0 false (by decide)).mpr (Or.inl rfl)
  · exact (h.1 "reach" (by decide) 3 true (by decide)).mpr (Or.inr rfl)
  · intro hmem
    rcases (h.1 "wip" (by decide) 2 false (by decide)).mp hmem with h0 | hr
    · exact absurd h0 (by decide)
    · exact absurd hr (by decide)
  · exact (h.2.1 "nope" (by decide) (by decide)).2

end Gap
